import Mathlib

/-!
Verification of `twisted/protocols/basic.py`: the netstring, line-oriented and
int32-prefixed framing protocols (`NetstringReceiver`, `LineReceiver`,
`Int32StringReceiver`) and the `StatefulStringProtocol` dispatcher.

Byte strings are modelled as `List Nat` (one `Nat` per byte; ASCII values are
used for the relevant constants: `','` is 44, `':'` is 58, `'\r\n'` is
`[13, 10]`, decimal digits are 48..57).
-/

/-- ASCII decimal digit test, mirroring the `\d` class of the
`NUMBER = re.compile('(\d*)(:?)')` pattern in `basic.py`. -/
def isDigitB (c : Nat) : Bool := 48 ≤ c && c ≤ 57

/-- Numeric value of a string of ASCII digits, most significant first:
the value `int(m.group(1))` computes in `NetstringReceiver.doLength`. -/
def digitsVal (ds : List Nat) : Nat := ds.foldl (fun acc c => acc * 10 + (c - 48)) 0

/-- The three parser modes of `NetstringReceiver`:
`LENGTH, DATA, COMMA = range(3)` in `basic.py`. -/
inductive NMode
  | LENGTH
  | DATA
  | COMMA
deriving DecidableEq

/-- The persistent state of a `NetstringReceiver` between `dataReceived`
calls: `self.mode`, `self.length` and `self.__buffer` (the partly
accumulated payload; it also retains the last delivered frame after
delivery, since the code never clears it until the next `':'`). -/
structure NState where
  mode : NMode
  length : Nat
  buffer : List Nat
deriving DecidableEq

/-- The fresh decoder state: class attributes `mode = LENGTH`, `length = 0`
and an empty buffer. -/
def nsInit : NState := ⟨NMode.LENGTH, 0, []⟩

/-- The two raise sites of `NetstringParseError` in `basic.py`:
`doLength` raises when the next byte is neither a digit nor `':'`
(the spec's `MalformedLengthPrefix`), `doComma` raises when the byte
after a payload is not `','` (the spec's `MissingTerminator`).  The
Python exception also carries the remaining `self.__data` as its
message; the message is not modelled. -/
inductive NErr
  | malformedLength
  | missingTerminator
deriving DecidableEq

/-- Weight of a parser mode for the termination measure of `nsRun`: a step in
`DATA` mode may consume no input (a zero-length payload is delivered and the
mode moves to `COMMA`), every other step consumes at least one byte. -/
def modeWt : NMode → Nat
  | NMode.DATA => 1
  | _ => 0

/-- `NetstringReceiver.dataReceived`: the `while self.__data:` loop
dispatching on `self.mode` to `doData` / `doComma` / `doLength`.
Returns the frames passed to `stringReceived`, in order, and either the
state left for the next call or the first parse error. -/
def nsRun : List Nat → NState → List (List Nat) × Except NErr NState
  | [], s => ([], Except.ok s)
  | c :: d, ⟨NMode.COMMA, len, buf⟩ =>
      -- doComma: `self.mode = LENGTH; if self.__data[0] != ',': raise`
      if c = 44 then nsRun d ⟨NMode.LENGTH, len, buf⟩
      else ([], Except.error NErr.missingTerminator)
  | c :: d, ⟨NMode.DATA, len, buf⟩ =>
      -- doData: `buffer, __data = __data[:length], __data[length:]`
      -- `self.length = self.length - len(buffer); self.__buffer += buffer`
      let taken := (c :: d).take len
      let rest := (c :: d).drop len
      let len' := len - taken.length
      let buf' := buf ++ taken
      if len' = 0 then
        -- `self.stringReceived(self.__buffer); self.mode = COMMA`
        let r := nsRun rest ⟨NMode.COMMA, len', buf'⟩
        (buf' :: r.1, r.2)
      else
        -- `if self.length != 0: return` (data exhausted, await more)
        nsRun rest ⟨NMode.DATA, len', buf'⟩
  | c :: d, ⟨NMode.LENGTH, len, buf⟩ =>
      -- doLength: `m = NUMBER.match(self.__data)` with `(\d*)(:?)`;
      -- `m.group(1)` is the maximal digit prefix, `m.group(2)` a following ':'
      let digits := (c :: d).takeWhile (fun x => isDigitB x)
      let rest1 := (c :: d).drop digits.length
      if digits.length = 0 then
        if rest1.head? = some 58 then
          -- group(1) empty: length unchanged; `self.__buffer = ''; self.mode = DATA`
          nsRun rest1.tail ⟨NMode.DATA, len, []⟩
        else
          -- `if not m.end(): raise NetstringParseError(self.__data)`
          ([], Except.error NErr.malformedLength)
      else
        -- `self.length = self.length * (10**len(g1)) + int(g1)`
        let len' := len * 10 ^ digits.length + digitsVal digits
        if rest1.head? = some 58 then
          nsRun rest1.tail ⟨NMode.DATA, len', []⟩
        else
          nsRun rest1 ⟨NMode.LENGTH, len', buf⟩
termination_by d s => 2 * d.length + modeWt s.mode
decreasing_by
all_goals
  simp only [modeWt, List.length_drop, List.length_cons, List.length_take,
    List.length_tail] at *
all_goals
  try unfold digits at *
all_goals
  omega

/-- Feeding a sequence of chunks, one `dataReceived` call per chunk, from a
given state: frames accumulate across calls; the first error stops the feed
(the exception propagates out of `dataReceived`). -/
def nsFeed : List (List Nat) → NState → List (List Nat) × Except NErr NState
  | [], s => ([], Except.ok s)
  | ch :: chs, s =>
      let r := nsRun ch s
      match r.2 with
      | Except.error e => (r.1, Except.error e)
      | Except.ok s' =>
          let r2 := nsFeed chs s'
          (r.1 ++ r2.1, r2.2)

example : nsRun [58, 44] nsInit = ([[]], Except.ok ⟨NMode.LENGTH, 0, []⟩) := by
  simp [nsRun, nsInit, isDigitB, digitsVal]

example :
    nsFeed [[49], [50, 58, 97, 98], [99, 100, 101, 102, 103, 104, 105, 106, 107, 108, 44]] nsInit
      = ([[97, 98, 99, 100, 101, 102, 103, 104, 105, 106, 107, 108]],
         Except.ok ⟨NMode.LENGTH, 0, [97, 98, 99, 100, 101, 102, 103, 104, 105, 106, 107, 108]⟩) := by
  simp [nsFeed, nsRun, nsInit, isDigitB, digitsVal]

example : nsRun [51, 120, 104, 105, 44] nsInit = ([], Except.error NErr.malformedLength) := by
  simp [nsRun, nsInit, isDigitB, digitsVal]

/-! ## LineReceiver -/

/-- The class attribute `delimiter = '\r\n'` of `LineReceiver`. -/
def delimiter : List Nat := [13, 10]

/-- Boolean prefix test (pattern, then string), used to locate the first
occurrence of the delimiter the way `string.split(buffer, delimiter, 1)`
does in `LineReceiver.dataReceived`. -/
def startsWith : List Nat → List Nat → Bool
  | [], _ => true
  | _ :: _, [] => false
  | a :: as, b :: bs => a = b && startsWith as bs

/-- `string.split(s, δ, 1)`: split `s` at the first occurrence of `δ`,
returning the part before and the part after; `none` when `δ` does not
occur (the `ValueError` branch of `LineReceiver.dataReceived`). -/
def splitOnce (δ : List Nat) : List Nat → Option (List Nat × List Nat)
  | [] => if startsWith δ [] then some ([], ([] : List Nat).drop δ.length) else none
  | c :: t =>
      if startsWith δ (c :: t) then some ([], (c :: t).drop δ.length)
      else (splitOnce δ t).map fun p => (c :: p.1, p.2)

/-- A callback event of `LineReceiver`: a `lineReceived` call or a
`rawDataReceived` call. -/
inductive LEvent
  | line (l : List Nat)
  | raw (d : List Nat)
deriving DecidableEq

/-- The persistent state of a `LineReceiver`: `self.line_mode` and
`self.buffer`. -/
structure LRState where
  line_mode : Bool
  buffer : List Nat
deriving DecidableEq

/-- The fresh `LineReceiver` state: `line_mode = 1`, `buffer = ''`. -/
def lrInit : LRState := ⟨true, []⟩

theorem startsWith_length_le : ∀ {δ s : List Nat}, startsWith δ s = true → δ.length ≤ s.length
  | [], _, _ => by simp
  | _ :: _, [], h => by simp [startsWith] at h
  | a :: as, b :: bs, h => by
      simp only [startsWith, Bool.and_eq_true] at h
      simpa using startsWith_length_le h.2

theorem startsWith_append_right : ∀ {δ s : List Nat}, startsWith δ s = true →
    ∀ y, startsWith δ (s ++ y) = true
  | [], _, _, _ => by simp [startsWith]
  | _ :: _, [], h, _ => by simp [startsWith] at h
  | a :: as, b :: bs, h, y => by
      simp only [startsWith, Bool.and_eq_true] at h ⊢
      exact ⟨h.1, startsWith_append_right h.2 y⟩

theorem startsWith_of_append_of_le : ∀ {δ s : List Nat} {y : List Nat},
    startsWith δ (s ++ y) = true → δ.length ≤ s.length → startsWith δ s = true
  | [], _, _, _, _ => by simp [startsWith]
  | _ :: _, [], _, _, hle => by simp at hle
  | a :: as, b :: bs, y, h, hle => by
      simp only [List.cons_append, startsWith, Bool.and_eq_true] at h ⊢
      simp only [List.length_cons, Nat.add_le_add_iff_right] at hle
      exact ⟨h.1, startsWith_of_append_of_le h.2 hle⟩

/-- Length bookkeeping for `splitOnce`, needed for the termination of the
`while self.line_mode:` loop. -/
theorem splitOnce_some_length {δ s l r : List Nat}
    (h : splitOnce δ s = some (l, r)) : s.length = δ.length + (l.length + r.length) := by
  induction s generalizing l r with
  | nil =>
      cases δ with
      | nil =>
          simp [splitOnce, startsWith] at h
          simp [h.1, h.2]
      | cons a as => simp [splitOnce, startsWith] at h
  | cons c t ih =>
      simp only [splitOnce] at h
      by_cases hp : startsWith δ (c :: t) = true
      · have hle := startsWith_length_le hp
        rw [if_pos hp, Option.some.injEq, Prod.mk.injEq] at h
        obtain ⟨hl, hr⟩ := h
        subst hl
        subst hr
        simp only [List.length_nil, List.length_drop, List.length_cons] at *
        omega
      · rw [if_neg hp, Option.map_eq_some'] at h
        obtain ⟨⟨p1, p2⟩, hsplit, hpair⟩ := h
        rw [Prod.mk.injEq] at hpair
        obtain ⟨hl, hr⟩ := hpair
        subst hl
        subst hr
        have hlen := ih hsplit
        simp only [List.length_cons]
        omega

/-- Splitting is stable under extending the string on the right: the first
delimiter occurrence inside `x` stays the first occurrence in `x ++ y`. -/
theorem splitOnce_append {δ x y l r : List Nat}
    (h : splitOnce δ x = some (l, r)) : splitOnce δ (x ++ y) = some (l, r ++ y) := by
  induction x generalizing l r with
  | nil =>
      cases δ with
      | nil =>
          simp [splitOnce, startsWith] at h
          cases y with
          | nil => simp [splitOnce, startsWith, h.1, h.2]
          | cons b bs => simp [splitOnce, startsWith, h.1, h.2]
      | cons a as => simp [splitOnce, startsWith] at h
  | cons c t ih =>
      simp only [splitOnce] at h
      by_cases hp : startsWith δ (c :: t) = true
      · have hle := startsWith_length_le hp
        rw [if_pos hp, Option.some.injEq, Prod.mk.injEq] at h
        obtain ⟨hl, hr⟩ := h
        subst hl
        subst hr
        rw [List.cons_append, splitOnce,
          if_pos (show startsWith δ (c :: (t ++ y)) = true by
            simpa using startsWith_append_right hp y),
          show c :: (t ++ y) = (c :: t) ++ y from rfl,
          List.drop_append_of_le_length hle]
      · rw [if_neg hp, Option.map_eq_some'] at h
        obtain ⟨⟨p1, p2⟩, hsplit, hpair⟩ := h
        rw [Prod.mk.injEq] at hpair
        obtain ⟨hl, hr⟩ := hpair
        subst hl
        subst hr
        have hlen := splitOnce_some_length hsplit
        have hp' : ¬ startsWith δ (c :: t ++ y) = true := by
          intro hcon
          exact hp (startsWith_of_append_of_le hcon (by simp; omega))
        rw [List.cons_append, splitOnce, if_neg (by simpa using hp'),
          ih hsplit]
        simp

/-- The `while self.line_mode:` loop of `LineReceiver.dataReceived`, run on
the whole (already concatenated) buffer.  `onLine` is the consumer's
`lineReceived` callback, abstracted by its only effect on the decoder: the
value of `self.line_mode` after the callback (a callback that calls
`setRawMode` returns `false`).  When the split fails the loop `break`s —
Python's `while ... else` clause is skipped, so the remainder stays
buffered; when `line_mode` is (or becomes) false, the `else` clause runs:
the whole remaining buffer is flushed to `rawDataReceived` if non-empty. -/
def lrLoop (onLine : List Nat → Bool) : Bool → List Nat → List LEvent × LRState
  | false, buf =>
      -- `else: data, self.buffer = self.buffer, ''; if data: return self.rawDataReceived(data)`
      if buf = [] then ([], ⟨false, []⟩) else ([LEvent.raw buf], ⟨false, []⟩)
  | true, buf =>
      match h : splitOnce delimiter buf with
      | none => ([], ⟨true, buf⟩)
      | some (l, r) =>
          let rst := lrLoop onLine (onLine l) r
          (LEvent.line l :: rst.1, rst.2)
termination_by _ buf => buf.length
decreasing_by
  have hl := splitOnce_some_length h
  simp only [delimiter, List.length_cons, List.length_nil] at hl
  omega

/-- `LineReceiver.dataReceived`: `self.buffer = self.buffer + data`, then the
line-splitting loop. -/
def lrDataReceived (onLine : List Nat → Bool) (data : List Nat) (s : LRState) :
    List LEvent × LRState :=
  lrLoop onLine s.line_mode (s.buffer ++ data)

/-- Feeding a sequence of chunks through `LineReceiver.dataReceived`, one
call per chunk. -/
def lrFeed (onLine : List Nat → Bool) : List (List Nat) → LRState → List LEvent × LRState
  | [], s => ([], s)
  | ch :: chs, s =>
      let r := lrDataReceived onLine ch s
      let r2 := lrFeed onLine chs r.2
      (r.1 ++ r2.1, r2.2)

example :
    lrDataReceived (fun _ => true) [97, 98, 13, 10, 99, 100] lrInit
      = ([LEvent.line [97, 98]], ⟨true, [99, 100]⟩) := by
  simp [lrDataReceived, lrLoop, lrInit, splitOnce, startsWith, delimiter]

example :
    lrDataReceived (fun l => decide (l ≠ [99, 109, 100]))
        ([99, 109, 100] ++ delimiter ++ [66, 73, 78, 65, 82, 89, 68, 65, 84, 65]) lrInit
      = ([LEvent.line [99, 109, 100], LEvent.raw [66, 73, 78, 65, 82, 89, 68, 65, 84, 65]],
         ⟨false, []⟩) := by
  simp [lrDataReceived, lrLoop, lrInit, splitOnce, startsWith, delimiter]

/-! ## Int32StringReceiver -/

/-- Big-endian unsigned reading of four bytes. -/
def be32 (b0 b1 b2 b3 : Nat) : Nat := ((b0 * 256 + b1) * 256 + b2) * 256 + b3

/-- `struct.unpack("!i", ...)`: big-endian **signed** 32-bit reading of four
bytes, as `Int32StringReceiver.dataReceived` performs on the length header. -/
def int32Signed (b0 b1 b2 b3 : Nat) : Int :=
  if be32 b0 b1 b2 b3 < 2 ^ 31 then (be32 b0 b1 b2 b3 : Int)
  else (be32 b0 b1 b2 b3 : Int) - 2 ^ 32

/-- Normalisation of a Python slice index against a sequence of length `n`:
negative indices count from the end, and both directions clamp to `[0, n]`. -/
def pyIdx (n : Nat) (i : Int) : Nat :=
  (if i < 0 then max ((n : Int) + i) 0 else min i (n : Int)).toNat

/-- Python's `s[a:b]` for integer indices. -/
def pySlice (s : List Nat) (a b : Int) : List Nat :=
  (s.drop (pyIdx s.length a)).take (pyIdx s.length b - pyIdx s.length a)

/-- Python's `s[a:]` for an integer index. -/
def pyDropSlice (s : List Nat) (a : Int) : List Nat := s.drop (pyIdx s.length a)

/-- The `while len(self.recvd) > 3:` loop of `Int32StringReceiver.dataReceived`.
`struct.unpack("!i", ...)` reads the header **signed**; a negative declared
length makes `self.recvd = self.recvd[length+4:]` keep the buffer unchanged
(Python clamps the negative start index to 0), so the loop need not
terminate: `fuel` bounds the number of iterations and the result is
`(frames so far, none)` when it runs out. -/
def i32Loop (fuel : Nat) (recvd : List Nat) : List (List Nat) × Option (List Nat) :=
  match recvd with
  | b0 :: b1 :: b2 :: b3 :: _ =>
      -- `length ,= struct.unpack("!i", self.recvd[:4])`
      let length := int32Signed b0 b1 b2 b3
      if (recvd.length : Int) < length + 4 then
        -- `if len(self.recvd) < length + 4: break`
        ([], some recvd)
      else
        match fuel with
        | 0 => ([], none)
        | fuel + 1 =>
            -- `packet = self.recvd[4:length + 4]; self.recvd = self.recvd[length + 4:]`
            let packet := pySlice recvd 4 (length + 4)
            let recvd' := pyDropSlice recvd (length + 4)
            let r := i32Loop fuel recvd'
            (packet :: r.1, r.2)
  | _ => ([], some recvd)

/-- `Int32StringReceiver.dataReceived`: `self.recvd = self.recvd + recd`,
then the unpacking loop. -/
def i32DataReceived (fuel : Nat) (data recvd : List Nat) :
    List (List Nat) × Option (List Nat) :=
  i32Loop fuel (recvd ++ data)

/-- Feeding a sequence of chunks through `Int32StringReceiver.dataReceived`,
one call per chunk; `none` marks a call that exceeded its fuel. -/
def i32Feed (fuel : Nat) : List (List Nat) → List Nat → List (List Nat) × Option (List Nat)
  | [], recvd => ([], some recvd)
  | ch :: chs, recvd =>
      let r := i32DataReceived fuel ch recvd
      match r.2 with
      | none => (r.1, none)
      | some recvd' =>
          let r2 := i32Feed fuel chs recvd'
          (r.1 ++ r2.1, r2.2)

example : i32DataReceived 5 [0, 0, 0, 2, 97, 98, 0] [] = ([[97, 98]], some [0]) := by decide

example :
    i32Feed 5 [[0, 0, 0, 5, 97, 98, 99], [100, 101]] []
      = ([[97, 98, 99, 100, 101]], some []) := by decide

example : i32DataReceived 5 [255, 255, 255, 255] [] = ([[]], some [255]) := by decide

/-! ## StatefulStringProtocol -/

/-- The observable outcome of one `StatefulStringProtocol.stringReceived`
dispatch: the state left for the next frame, whether the `AttributeError`
branch reported a missing handler (`print 'callback', self.state,
'not found'` — the spec's `UnknownState` condition), whether a handler ran,
and whether `self.transport.loseConnection()` was called. -/
structure SSPResult where
  state : String
  unknownStateReported : Bool
  handlerCalled : Bool
  connectionLost : Bool
deriving DecidableEq

/-- `StatefulStringProtocol.stringReceived`: `getattr(self, 'proto_' + self.state)`
is modelled by a lookup in `handlers`; on a miss the condition is reported and
nothing else happens, otherwise `self.state = statehandler(string)` and the
connection is closed when the new state is `'done'`. -/
def sspStringReceived (handlers : String → Option (List Nat → String))
    (frame : List Nat) (st : String) : SSPResult :=
  match handlers ("proto_" ++ st) with
  | none => ⟨st, true, false, false⟩
  | some statehandler =>
      let st' := statehandler frame
      ⟨st', false, true, st' = "done"⟩

/-! ## The encoders -/

/-- ASCII decimal representation of a natural number, most significant digit
first: the `'%d'` conversion used by `NetstringReceiver.sendString`. -/
def decRepr (n : Nat) : List Nat :=
  if n < 10 then [48 + n] else decRepr (n / 10) ++ [48 + n % 10]
termination_by n
decreasing_by exact Nat.div_lt_self (by omega) (by omega)

/-- `NetstringReceiver.sendString`: `self.transport.write('%d:%s,' % (len(data), data))`. -/
def nsEncode (p : List Nat) : List Nat := decRepr p.length ++ 58 :: (p ++ [44])

/-- `LineReceiver.sendLine`: `self.transport.write(line + self.delimiter)`. -/
def lrEncode (p : List Nat) : List Nat := p ++ delimiter

/-- `struct.pack("!i", n)` for `0 ≤ n < 2^31`: the four big-endian bytes of `n`. -/
def pack32 (n : Nat) : List Nat :=
  [n / 2 ^ 24 % 256, n / 2 ^ 16 % 256, n / 2 ^ 8 % 256, n % 256]

/-- `Int32StringReceiver.sendString`:
`self.transport.write(struct.pack("!i", len(data)) + data)`. -/
def i32Encode (p : List Nat) : List Nat := pack32 p.length ++ p

example : nsEncode [97, 98] = [50, 58, 97, 98, 44] := by
  rw [nsEncode, show ([97, 98] : List Nat).length = 2 from rfl, decRepr]
  norm_num

/-! ## Arithmetic facts about the decimal representation -/

theorem digitsVal_foldl_acc (b : List Nat) :
    ∀ acc, b.foldl (fun acc c => acc * 10 + (c - 48)) acc
      = acc * 10 ^ b.length + digitsVal b := by
  induction b with
  | nil => intro acc; simp [digitsVal]
  | cons x xs ih =>
      intro acc
      simp only [List.foldl_cons, List.length_cons, digitsVal] at *
      rw [ih, ih (0 * 10 + (x - 48))]
      ring

theorem digitsVal_append (a b : List Nat) :
    digitsVal (a ++ b) = digitsVal a * 10 ^ b.length + digitsVal b := by
  unfold digitsVal
  rw [List.foldl_append, digitsVal_foldl_acc]
  rfl

theorem decRepr_digits (n : Nat) : ∀ c ∈ decRepr n, isDigitB c = true := by
  induction n using Nat.strong_induction_on with
  | _ n ih =>
      rw [decRepr]
      by_cases h : n < 10
      · simp only [if_pos h, List.mem_singleton]
        intro c hc
        subst hc
        simp [isDigitB]
        omega
      · simp only [if_neg h, List.mem_append, List.mem_singleton]
        intro c hc
        rcases hc with hc | hc
        · exact ih (n / 10) (Nat.div_lt_self (by omega) (by omega)) c hc
        · subst hc
          simp [isDigitB]
          omega

theorem decRepr_ne_nil (n : Nat) : decRepr n ≠ [] := by
  rw [decRepr]
  by_cases h : n < 10 <;> simp [h]

theorem decRepr_val (n : Nat) : digitsVal (decRepr n) = n := by
  induction n using Nat.strong_induction_on with
  | _ n ih =>
      rw [decRepr]
      by_cases h : n < 10
      · simp [if_pos h, digitsVal]
      · rw [if_neg h, digitsVal_append,
          ih (n / 10) (Nat.div_lt_self (by omega) (by omega))]
        simp [digitsVal]
        omega

/-! ## Branch equations for `nsRun` -/

theorem nsRun_nil (s : NState) : nsRun [] s = ([], Except.ok s) := by
  simp only [nsRun]

theorem nsRun_comma (c : Nat) (d : List Nat) (len : Nat) (buf : List Nat) :
    nsRun (c :: d) ⟨NMode.COMMA, len, buf⟩ =
      if c = 44 then nsRun d ⟨NMode.LENGTH, len, buf⟩
      else ([], Except.error NErr.missingTerminator) := by
  simp only [nsRun]

theorem nsRun_data (c : Nat) (d : List Nat) (len : Nat) (buf : List Nat) :
    nsRun (c :: d) ⟨NMode.DATA, len, buf⟩ =
      (let taken := (c :: d).take len
       let rest := (c :: d).drop len
       let len' := len - taken.length
       let buf' := buf ++ taken
       if len' = 0 then
         let r := nsRun rest ⟨NMode.COMMA, len', buf'⟩
         (buf' :: r.1, r.2)
       else
         nsRun rest ⟨NMode.DATA, len', buf'⟩) := by
  simp only [nsRun]

theorem nsRun_length (c : Nat) (d : List Nat) (len : Nat) (buf : List Nat) :
    nsRun (c :: d) ⟨NMode.LENGTH, len, buf⟩ =
      (let digits := (c :: d).takeWhile (fun x => isDigitB x)
       let rest1 := (c :: d).drop digits.length
       if digits.length = 0 then
         if rest1.head? = some 58 then nsRun rest1.tail ⟨NMode.DATA, len, []⟩
         else ([], Except.error NErr.malformedLength)
       else
         let len' := len * 10 ^ digits.length + digitsVal digits
         if rest1.head? = some 58 then nsRun rest1.tail ⟨NMode.DATA, len', []⟩
         else nsRun rest1 ⟨NMode.LENGTH, len', buf⟩) := by
  simp only [nsRun]

/-! ## Claims about the netstring length field and terminator -/

/-- C10: `NetstringReceiver` does not require any digit before the `':'`
separator — a length field with zero digits is read as length 0, so feeding
`b":,"` to a fresh decoder raises no error, invokes `stringReceived` exactly
once with the empty frame, and returns the decoder to length mode with
length 0 (the retained `__buffer` holds the delivered empty frame). -/
theorem netstring_zero_digit_length_field :
    nsRun [58, 44] nsInit = ([[]], Except.ok ⟨NMode.LENGTH, 0, []⟩) := by
  simp [nsRun, nsInit, isDigitB, digitsVal]

/-- C7: while `NetstringReceiver` reads a length field, a next byte that is
neither an ASCII digit nor `':'` makes `dataReceived` fail with the
`doLength` parse error (the spec's `MalformedLengthPrefix`); in particular
`b"3xhi,"` on a fresh decoder fails so; a non-empty chunk of digits alone is
not an error — the length accumulates and the decoder awaits more input. -/
theorem netstring_malformed_length_prefix_error :
    (∀ c d len buf, isDigitB c = false → c ≠ 58 →
        nsRun (c :: d) ⟨NMode.LENGTH, len, buf⟩
          = ([], Except.error NErr.malformedLength))
    ∧ nsRun [51, 120, 104, 105, 44] nsInit = ([], Except.error NErr.malformedLength)
    ∧ (∀ c d len buf, (∀ x ∈ c :: d, isDigitB x = true) →
        nsRun (c :: d) ⟨NMode.LENGTH, len, buf⟩
          = ([], Except.ok ⟨NMode.LENGTH,
              len * 10 ^ (c :: d).length + digitsVal (c :: d), buf⟩)) := by
  refine ⟨?_, ?_, ?_⟩
  · intro c d len buf hc h58
    rw [nsRun_length]
    simp [List.takeWhile_cons, hc, h58]
  · simp [nsRun, nsInit, isDigitB, digitsVal]
  · intro c d len buf hall
    rw [nsRun_length]
    have htw : (c :: d).takeWhile (fun x => isDigitB x) = c :: d :=
      List.takeWhile_eq_self_iff.mpr (by exact fun a ha => hall a ha)
    rw [htw]
    simp [nsRun_nil]

/-- witness for the hypotheses of C7's theorem, at `c = 120` (not a digit,
not `':'`) and at the all-digit chunk `b"12"`. -/
theorem netstring_malformed_length_prefix_error_witness :
    nsRun [120] ⟨NMode.LENGTH, 0, []⟩ = ([], Except.error NErr.malformedLength)
    ∧ nsRun [49, 50] ⟨NMode.LENGTH, 0, []⟩
        = ([], Except.ok ⟨NMode.LENGTH, 12, []⟩) := by
  constructor
  · exact netstring_malformed_length_prefix_error.1 120 [] 0 [] (by decide) (by decide)
  · have := netstring_malformed_length_prefix_error.2.2 49 [50] 0 [] (by decide)
    simpa [digitsVal] using this

/-- C8: from the state just after a frame delivery (`COMMA` mode, length 0),
a `','` byte is consumed and the decoder continues in length mode with
length 0, ready for the next frame; any other byte makes `dataReceived` fail
with the `doComma` parse error (the spec's `MissingTerminator`). -/
theorem netstring_comma_terminator :
    (∀ d buf, nsRun (44 :: d) ⟨NMode.COMMA, 0, buf⟩ = nsRun d ⟨NMode.LENGTH, 0, buf⟩)
    ∧ (∀ c d buf, c ≠ 44 →
        nsRun (c :: d) ⟨NMode.COMMA, 0, buf⟩
          = ([], Except.error NErr.missingTerminator)) := by
  constructor
  · intro d buf
    rw [nsRun_comma]
    simp
  · intro c d buf hc
    rw [nsRun_comma]
    simp [hc]

/-- witness for C8's theorem at `d = []`, `buf = []` and the byte 120. -/
theorem netstring_comma_terminator_witness :
    nsRun [44] ⟨NMode.COMMA, 0, []⟩ = ([], Except.ok ⟨NMode.LENGTH, 0, []⟩)
    ∧ nsRun [120] ⟨NMode.COMMA, 0, []⟩ = ([], Except.error NErr.missingTerminator) := by
  constructor
  · rw [netstring_comma_terminator.1 [] [], nsRun_nil]
  · exact netstring_comma_terminator.2 120 [] [] (by decide)

/-- C5: the decimal length accumulates across chunk boundaries — a single
digit chunk multiplies the pending length by 10 and adds the digit's value —
and concretely, feeding `b"1"`, then `b"2:ab"`, then `b"cdefghijkl,"` to a
fresh decoder delivers exactly the 12-byte frame `b"abcdefghijkl"` and
returns the decoder to length mode with length 0. -/
theorem netstring_length_across_chunks :
    (∀ c len buf, isDigitB c = true →
        nsRun [c] ⟨NMode.LENGTH, len, buf⟩
          = ([], Except.ok ⟨NMode.LENGTH, len * 10 + (c - 48), buf⟩))
    ∧ nsFeed [[49], [50, 58, 97, 98],
        [99, 100, 101, 102, 103, 104, 105, 106, 107, 108, 44]] nsInit
        = ([[97, 98, 99, 100, 101, 102, 103, 104, 105, 106, 107, 108]],
           Except.ok ⟨NMode.LENGTH, 0,
             [97, 98, 99, 100, 101, 102, 103, 104, 105, 106, 107, 108]⟩) := by
  constructor
  · intro c len buf hc
    rw [nsRun_length]
    simp [List.takeWhile_cons, hc, digitsVal, nsRun_nil]
  · simp [nsFeed, nsRun, nsInit, isDigitB, digitsVal]

/-- witness for C5's theorem at the digit `'7'` (55). -/
theorem netstring_length_across_chunks_witness :
    nsRun [55] ⟨NMode.LENGTH, 4, []⟩ = ([], Except.ok ⟨NMode.LENGTH, 47, []⟩) := by
  have := netstring_length_across_chunks.1 55 4 [] (by decide)
  simpa using this

/-! ## Claims about Int32StringReceiver -/

/-- C3 (failing input): the code reads the 4-byte header with the **signed**
format `"!i"`, not unsigned.  On `b"\xff\xff\xff\xff"` (declared length
`2^32 - 1`) a fresh decoder should, per the claim, buffer and wait for
`2^32 - 1` payload bytes; instead the signed read yields `-1`, the slice
bounds collapse, an *empty* frame is delivered at once and a stray header
byte `0xff` is left buffered. -/
theorem i32_signed_header_failing_input :
    i32DataReceived 10 [255, 255, 255, 255] [] = ([[]], some [255]) := by decide

theorem pyIdx_nonneg (n : Nat) (i : Int) (h : 0 ≤ i) : pyIdx n i = min i.toNat n := by
  simp only [pyIdx]
  omega

/-- The header-and-payload slice `recvd[4:length+4]` for a non-negative
declared length `u` with enough buffered payload. -/
theorem pySlice_header (b0 b1 b2 b3 : Nat) (t : List Nat) (u : Nat) (h : u ≤ t.length) :
    pySlice (b0 :: b1 :: b2 :: b3 :: t) ((4 : Int)) ((u : Int) + 4) = t.take u := by
  simp only [pySlice, List.length_cons]
  rw [pyIdx_nonneg _ _ (by omega), pyIdx_nonneg _ _ (by omega)]
  have h4 : min (Int.toNat 4) (t.length + 1 + 1 + 1 + 1) = 4 := by omega
  have hu : min (Int.toNat ((u : Int) + 4)) (t.length + 1 + 1 + 1 + 1) = u + 4 := by omega
  rw [h4, hu]
  simp [List.drop_succ_cons]

/-- The residue slice `recvd[length+4:]` for a non-negative declared length. -/
theorem pyDropSlice_header (b0 b1 b2 b3 : Nat) (t : List Nat) (u : Nat) (h : u ≤ t.length) :
    pyDropSlice (b0 :: b1 :: b2 :: b3 :: t) ((u : Int) + 4) = t.drop u := by
  simp only [pyDropSlice, List.length_cons]
  rw [pyIdx_nonneg _ _ (by omega)]
  have hu : min (Int.toNat ((u : Int) + 4)) (t.length + 1 + 1 + 1 + 1) = u + 4 := by omega
  rw [hu]
  simp [List.drop_succ_cons]

/-- C6: with at least 4 buffered bytes declaring a (non-negative, i.e.
`< 2^31`) length `u`, `Int32StringReceiver.dataReceived` consumes nothing
and delivers nothing while fewer than `4 + u` bytes are buffered; once
`4 + u` bytes are available it consumes header and payload together and
delivers exactly the `u` payload bytes (a declared length of 0 yields a
valid empty frame); concretely, a header declaring 5 with only 3 payload
bytes emits nothing, and the remaining 2 bytes complete one 5-byte frame. -/
theorem i32_frame_boundary :
    (∀ fuel b0 b1 b2 b3 t, be32 b0 b1 b2 b3 < 2 ^ 31 →
        t.length < be32 b0 b1 b2 b3 →
        i32Loop fuel (b0 :: b1 :: b2 :: b3 :: t)
          = ([], some (b0 :: b1 :: b2 :: b3 :: t)))
    ∧ (∀ fuel b0 b1 b2 b3 t, be32 b0 b1 b2 b3 < 2 ^ 31 →
        be32 b0 b1 b2 b3 ≤ t.length →
        i32Loop (fuel + 1) (b0 :: b1 :: b2 :: b3 :: t)
          = (let r := i32Loop fuel (t.drop (be32 b0 b1 b2 b3))
             (t.take (be32 b0 b1 b2 b3) :: r.1, r.2)))
    ∧ i32DataReceived 1 [0, 0, 0, 0] [] = ([[]], some [])
    ∧ i32Feed 5 [[0, 0, 0, 5, 97, 98, 99], [100, 101]] []
        = ([[97, 98, 99, 100, 101]], some []) := by
  refine ⟨?_, ?_, by decide, by decide⟩
  · intro fuel b0 b1 b2 b3 t hu hlt
    rw [i32Loop.eq_def]
    simp only [int32Signed, if_pos hu]
    rw [if_pos]
    simp only [List.length_cons]
    push_cast
    omega
  · intro fuel b0 b1 b2 b3 t hu hle
    rw [i32Loop.eq_def]
    simp only [int32Signed, if_pos hu]
    rw [if_neg]
    · rw [pySlice_header _ _ _ _ _ _ hle, pyDropSlice_header _ _ _ _ _ _ hle]
    · simp only [List.length_cons]
      push_cast
      omega

/-- witness for C6's theorem: header `00 00 00 02` with one buffered payload
byte waits; with two payload bytes it delivers them as one frame. -/
theorem i32_frame_boundary_witness :
    i32Loop 7 [0, 0, 0, 2, 97] = ([], some [0, 0, 0, 2, 97])
    ∧ i32Loop 8 [0, 0, 0, 2, 97, 98] = ([[97, 98]], some []) := by
  constructor
  · exact i32_frame_boundary.1 7 0 0 0 2 [97] (by decide) (by decide)
  · have := i32_frame_boundary.2.1 7 0 0 0 2 [97, 98] (by decide) (by decide)
    simpa using this

/-! ## Claims about StatefulStringProtocol and LineReceiver raw mode -/

/-- C9: when `StatefulStringProtocol.stringReceived` finds no
`proto_<state>` handler, it reports the missing handler (the spec's
`UnknownState` condition), invokes no handler, does not lose the
connection, and leaves the state unchanged, so a subsequent frame is
dispatched against the very same state. -/
theorem ssp_unknown_state (handlers : String → Option (List Nat → String))
    (frame f2 : List Nat) (st : String)
    (h : handlers ("proto_" ++ st) = none) :
    sspStringReceived handlers frame st = ⟨st, true, false, false⟩
    ∧ sspStringReceived handlers f2 (sspStringReceived handlers frame st).state
        = sspStringReceived handlers f2 st := by
  have h1 : sspStringReceived handlers frame st = ⟨st, true, false, false⟩ := by
    simp only [sspStringReceived, h]
  exact ⟨h1, by rw [h1]⟩

/-- witness for C9's theorem with an empty handler registry and state
`'init'`. -/
theorem ssp_unknown_state_witness :
    sspStringReceived (fun _ => none) [] "init" = ⟨"init", true, false, false⟩ := by
  exact (ssp_unknown_state (fun _ => none) [] [] "init" rfl).1

/-- C4: if a `lineReceived` callback switches the decoder to raw mode, line
splitting stops at once and the whole remaining buffer, if non-empty, goes
to `rawDataReceived` in a single call inside the same `dataReceived`
invocation; concretely, `b"cmd\r\nBINARYDATA"` fed in one call to a fresh
decoder whose handler for `"cmd"` switches to raw mode delivers the line
`"cmd"` and then `b"BINARYDATA"` to the raw callback. -/
theorem linereceiver_raw_mode_flush :
    (∀ (onLine : List Nat → Bool) (buf l r : List Nat),
        splitOnce delimiter buf = some (l, r) → onLine l = false →
        lrLoop onLine true buf
          = (LEvent.line l :: (if r = [] then [] else [LEvent.raw r]), ⟨false, []⟩))
    ∧ lrDataReceived (fun l => decide (l ≠ [99, 109, 100]))
        ([99, 109, 100] ++ delimiter ++ [66, 73, 78, 65, 82, 89, 68, 65, 84, 65]) lrInit
        = ([LEvent.line [99, 109, 100], LEvent.raw [66, 73, 78, 65, 82, 89, 68, 65, 84, 65]],
           ⟨false, []⟩) := by
  constructor
  · intro onLine buf l r hsplit hraw
    rw [lrLoop.eq_def]
    simp only []
    split
    · rename_i heq
      rw [hsplit] at heq
      cases heq
    · rename_i l' r' heq
      rw [hsplit] at heq
      rw [Option.some.injEq, Prod.mk.injEq] at heq
      obtain ⟨hl, hr⟩ := heq
      subst hl
      subst hr
      rw [hraw, lrLoop.eq_def]
      by_cases hre : r = []
      · simp [hre]
      · simp [hre]
  · simp [lrDataReceived, lrLoop, lrInit, splitOnce, startsWith, delimiter]

/-- witness for C4's theorem: the concrete `"cmd"` example discharged through
the universally quantified conjunct. -/
theorem linereceiver_raw_mode_flush_witness :
    lrLoop (fun l => decide (l ≠ [99, 109, 100])) true
        ([99, 109, 100] ++ delimiter ++ [66, 73, 78, 65, 82, 89, 68, 65, 84, 65])
      = ([LEvent.line [99, 109, 100], LEvent.raw [66, 73, 78, 65, 82, 89, 68, 65, 84, 65]],
         ⟨false, []⟩) := by
  have := linereceiver_raw_mode_flush.1 (fun l => decide (l ≠ [99, 109, 100]))
      ([99, 109, 100] ++ delimiter ++ [66, 73, 78, 65, 82, 89, 68, 65, 84, 65])
      [99, 109, 100] [66, 73, 78, 65, 82, 89, 68, 65, 84, 65]
      (by simp [splitOnce, startsWith, delimiter]) (by decide)
  simpa using this

/-! ## Round-trip helper lemmas -/

/-- A length field made of digits `ds` terminated by `':'` is consumed in one
`doLength` step, scaling the pending length and entering `DATA` mode with a
cleared buffer. -/
theorem nsRun_length_digits (ds rest : List Nat) (len : Nat) (buf : List Nat)
    (hne : ds ≠ []) (hds : ∀ c ∈ ds, isDigitB c = true) :
    nsRun (ds ++ 58 :: rest) ⟨NMode.LENGTH, len, buf⟩
      = nsRun rest ⟨NMode.DATA, len * 10 ^ ds.length + digitsVal ds, []⟩ := by
  obtain ⟨c, ds', rfl⟩ : ∃ c ds', ds = c :: ds' := by
    cases ds with
    | nil => exact absurd rfl hne
    | cons c ds' => exact ⟨c, ds', rfl⟩
  rw [show (c :: ds') ++ 58 :: rest = c :: (ds' ++ 58 :: rest) from rfl, nsRun_length]
  have htw : (c :: (ds' ++ 58 :: rest)).takeWhile (fun x => isDigitB x) = c :: ds' := by
    rw [show c :: (ds' ++ 58 :: rest) = (c :: ds') ++ 58 :: rest from rfl,
      List.takeWhile_append_of_pos hds]
    simp [List.takeWhile_cons, isDigitB]
  rw [htw]
  have hdrop : (c :: (ds' ++ 58 :: rest)).drop (c :: ds').length = 58 :: rest := by
    rw [show c :: (ds' ++ 58 :: rest) = (c :: ds') ++ 58 :: rest from rfl]
    exact List.drop_left _ _
  simp [hdrop]

/-- A `doData` step with the whole payload available: the first `len` bytes
complete the frame and the parser moves to `COMMA` mode. -/
theorem nsRun_data_take (d : List Nat) (len : Nat) (buf : List Nat) (hne : d ≠ [])
    (hlen : len ≤ d.length) :
    nsRun d ⟨NMode.DATA, len, buf⟩
      = (let r := nsRun (d.drop len) ⟨NMode.COMMA, 0, buf ++ d.take len⟩
         ((buf ++ d.take len) :: r.1, r.2)) := by
  obtain ⟨c, d', rfl⟩ : ∃ c d', d = c :: d' := by
    cases d with
    | nil => exact absurd rfl hne
    | cons c d' => exact ⟨c, d', rfl⟩
  rw [nsRun_data]
  simp only [List.length_cons] at hlen
  have hmin : ((c :: d').take len).length = len := by
    simp only [List.length_take, List.length_cons]
    omega
  simp [hmin]

/-- The delimiter matches at the head of a two-or-more byte string exactly
when the first two bytes are `'\r'` and `'\n'`. -/
theorem startsWith_two_iff (c x : Nat) (Y : List Nat) :
    startsWith delimiter (c :: x :: Y) = true ↔ (c = 13 ∧ x = 10) := by
  simp [delimiter, startsWith]
  constructor <;> omega

/-- If `p` does not contain `'\r\n'`, then `p ++ '\r\n'` splits into the line
`p` and an empty remainder (no delimiter occurrence can straddle into `p`
because the delimiter's two bytes differ and its first byte is not its
second). -/
theorem splitOnce_delimiter_append (p : List Nat) (h : splitOnce delimiter p = none) :
    splitOnce delimiter (p ++ delimiter) = some (p, []) := by
  induction p with
  | nil => decide
  | cons c t ih =>
      simp only [splitOnce] at h
      by_cases hp : startsWith delimiter (c :: t) = true
      · rw [if_pos hp] at h
        cases h
      · rw [if_neg hp, Option.map_eq_none'] at h
        have hrec := ih h
        have hp' : startsWith delimiter (c :: (t ++ delimiter)) = false := by
          rw [← Bool.not_eq_true]
          intro hcon
          cases t with
          | nil =>
              have h2 := (startsWith_two_iff c 13 [10]).mp hcon
              omega
          | cons x t' =>
              have h2 := (startsWith_two_iff c x (t' ++ delimiter)).mp hcon
              exact hp ((startsWith_two_iff c x t').mpr h2)
        rw [List.cons_append, splitOnce, hp']
        simp only [Bool.false_eq_true, if_false]
        rw [hrec]
        rfl

/-- Reassembling the four bytes `struct.pack("!i", n)` produces recovers `n`. -/
theorem be32_pack32 (n : Nat) (h : n < 2 ^ 32) :
    be32 (n / 2 ^ 24 % 256) (n / 2 ^ 16 % 256) (n / 2 ^ 8 % 256) (n % 256) = n := by
  simp only [be32]
  omega

/-- C2: decode-after-encode delivers exactly the one encoded payload and
leaves nothing pending, for each framing discipline: `sendString` then a
fresh `NetstringReceiver` (any payload; the retained `__buffer` holds the
delivered frame), `sendLine` then a fresh `LineReceiver` (payloads not
containing the delimiter), and `sendString` then a fresh
`Int32StringReceiver` (payload lengths below `2^31`, the domain of
`struct.pack("!i", ...)`). -/
theorem roundtrip_encode_decode :
    (∀ p : List Nat, nsRun (nsEncode p) nsInit = ([p], Except.ok ⟨NMode.LENGTH, 0, p⟩))
    ∧ (∀ p : List Nat, splitOnce delimiter p = none →
        lrDataReceived (fun _ => true) (lrEncode p) lrInit = ([LEvent.line p], ⟨true, []⟩))
    ∧ (∀ p : List Nat, p.length < 2 ^ 31 →
        i32DataReceived 1 (i32Encode p) [] = ([p], some [])) := by
  refine ⟨?_, ?_, ?_⟩
  · intro p
    rw [show nsEncode p = decRepr p.length ++ 58 :: (p ++ [44]) from rfl]
    rw [show nsInit = ⟨NMode.LENGTH, 0, []⟩ from rfl]
    rw [nsRun_length_digits _ _ _ _ (decRepr_ne_nil _) (decRepr_digits _)]
    rw [Nat.zero_mul, Nat.zero_add, decRepr_val]
    rw [nsRun_data_take _ _ _ (by simp) (by simp)]
    rw [List.take_left, List.drop_left]
    rw [nsRun_comma]
    simp [nsRun_nil]
  · intro p hp
    rw [show lrEncode p = p ++ delimiter from rfl]
    simp only [lrDataReceived, lrInit, List.nil_append]
    rw [lrLoop.eq_def]
    simp only []
    rw [splitOnce_delimiter_append p hp]
    simp [lrLoop, splitOnce, startsWith, delimiter]
  · intro p hlen
    rw [show i32Encode p = pack32 p.length ++ p from rfl]
    simp only [i32DataReceived, List.nil_append, pack32, List.cons_append,
      List.nil_append]
    rw [i32Loop.eq_def]
    simp only [int32Signed, be32_pack32 p.length (by omega), if_pos hlen]
    rw [if_neg (by simp only [List.length_cons]; push_cast; omega)]
    have hsl := pySlice_header (p.length / 2 ^ 24 % 256) (p.length / 2 ^ 16 % 256)
      (p.length / 2 ^ 8 % 256) (p.length % 256) p p.length (Nat.le_refl _)
    have hds := pyDropSlice_header (p.length / 2 ^ 24 % 256) (p.length / 2 ^ 16 % 256)
      (p.length / 2 ^ 8 % 256) (p.length % 256) p p.length (Nat.le_refl _)
    rw [hsl, hds, List.take_length, List.drop_length]
    rw [i32Loop.eq_def]

/-- witness for C2's theorem at the payload `b"ab"` (and the empty payload
for the int32 discipline). -/
theorem roundtrip_encode_decode_witness :
    nsRun (nsEncode [97, 98]) nsInit
        = ([[97, 98]], Except.ok ⟨NMode.LENGTH, 0, [97, 98]⟩)
    ∧ lrDataReceived (fun _ => true) (lrEncode [97, 98]) lrInit
        = ([LEvent.line [97, 98]], ⟨true, []⟩)
    ∧ i32DataReceived 1 (i32Encode []) [] = ([[]], some []) := by
  refine ⟨roundtrip_encode_decode.1 [97, 98],
    roundtrip_encode_decode.2.1 [97, 98] (by decide),
    roundtrip_encode_decode.2.2 [] (by decide)⟩

/-! ## Chunk-boundary invariance for NetstringReceiver -/

/-- Sequencing of decoder results: what a further `dataReceived(b)` call adds
to an earlier result (frames append; an earlier error stands). -/
def nsThen (r : List (List Nat) × Except NErr NState) (b : List Nat) :
    List (List Nat) × Except NErr NState :=
  match r.2 with
  | Except.error e => (r.1, Except.error e)
  | Except.ok s1 =>
      let r2 := nsRun b s1
      (r.1 ++ r2.1, r2.2)

theorem nsThen_error (fs : List (List Nat)) (e : NErr) (b : List Nat) :
    nsThen (fs, Except.error e) b = (fs, Except.error e) := rfl

theorem nsThen_ok (fs : List (List Nat)) (s1 : NState) (b : List Nat) :
    nsThen (fs, Except.ok s1) b = (fs ++ (nsRun b s1).1, (nsRun b s1).2) := rfl

theorem nsThen_nil_ok (s1 : NState) (b : List Nat) :
    nsThen ([], Except.ok s1) b = nsRun b s1 := by
  rw [nsThen_ok]
  simp

theorem takeWhile_digits_nil (c : Nat) (d : List Nat) (hc : isDigitB c = false) :
    (c :: d).takeWhile (fun x => isDigitB x) = [] := by
  simp [List.takeWhile_cons, hc]

theorem head_not_digit_of_takeWhile_len_zero (c : Nat) (d : List Nat)
    (h : ((c :: d).takeWhile (fun x => isDigitB x)).length = 0) : isDigitB c = false := by
  by_cases hc : isDigitB c = true
  · rw [List.takeWhile_cons, if_pos hc] at h
    simp at h
  · simpa using hc

/-- The central composition property behind chunk-boundary invariance:
one `dataReceived` call on `a ++ b` behaves exactly like a call on `a`
followed (unless it raised) by a call on `b`. -/
theorem nsRun_append (b : List Nat) : ∀ (a : List Nat) (s : NState),
    nsRun (a ++ b) s = nsThen (nsRun a s) b := by
  intro a s
  induction a, s using nsRun.induct with
  | case1 s =>
      rw [List.nil_append, nsRun_nil, nsThen_nil_ok]
  | case2 d len buf ih =>
      rw [show (44 :: d) ++ b = 44 :: (d ++ b) from rfl, nsRun_comma, if_pos rfl,
        nsRun_comma, if_pos rfl]
      exact ih
  | case3 c d len buf hc =>
      rw [show (c :: d) ++ b = c :: (d ++ b) from rfl, nsRun_comma, if_neg hc,
        nsRun_comma, if_neg hc, nsThen_error]
  | case4 c d len buf taken rest len' buf' hlen' ih =>
      have h0 : len - ((c :: d).take len).length = 0 := hlen'
      have hlenle : len ≤ (c :: d).length := by
        simp only [List.length_take, List.length_cons] at h0 ⊢
        omega
      have htakew : (c :: (d ++ b)).take len = (c :: d).take len := by
        rw [← List.cons_append, List.take_append_eq_append_take,
          Nat.sub_eq_zero_of_le hlenle, List.take_zero, List.append_nil]
      have hdropw : (c :: (d ++ b)).drop len = (c :: d).drop len ++ b := by
        rw [← List.cons_append, List.drop_append_eq_append_drop,
          Nat.sub_eq_zero_of_le hlenle, List.drop_zero]
      rw [hlen'] at ih
      unfold rest buf' taken at ih
      rw [List.cons_append, nsRun_data c (d ++ b), nsRun_data c d]
      simp only [htakew, hdropw, h0]
      simp only [reduceIte]
      rw [ih]
      cases hres : (nsRun ((c :: d).drop len)
          ⟨NMode.COMMA, 0, buf ++ (c :: d).take len⟩).2 with
      | error e => simp [nsThen, hres]
      | ok s1 => simp [nsThen, hres]
  | case5 c d len buf taken rest len' buf' hlen' ih =>
      have hgt : (c :: d).length < len := by
        have h1 : ¬ len - ((c :: d).take len).length = 0 := hlen'
        simp only [List.length_take, List.length_cons] at h1 ⊢
        omega
      have htaken_all : (c :: d).take len = c :: d := List.take_of_length_le (by omega)
      have hrest_nil : (c :: d).drop len = [] := List.drop_eq_nil_of_le (by omega)
      rw [nsRun_data c d]
      simp only [htaken_all, hrest_nil]
      rw [if_neg (by omega), nsRun_nil, nsThen_nil_ok]
      cases b with
      | nil =>
          rw [List.append_nil, nsRun_data c d, nsRun_nil]
          simp only [htaken_all, hrest_nil]
          rw [if_neg (by omega)]
          rw [nsRun_nil]
      | cons e b2 =>
          rw [List.cons_append, nsRun_data c (d ++ e :: b2)]
          have htw : (c :: (d ++ e :: b2)).take len
              = (c :: d) ++ (e :: b2).take (len - (c :: d).length) := by
            rw [← List.cons_append, List.take_append_eq_append_take, htaken_all]
          have hdw : (c :: (d ++ e :: b2)).drop len
              = (e :: b2).drop (len - (c :: d).length) := by
            rw [← List.cons_append, List.drop_append_eq_append_drop, hrest_nil,
              List.nil_append]
          simp only [htw, hdw]
          rw [nsRun_data e b2]
          have hlen_eq : len - ((c :: d) ++ (e :: b2).take (len - (c :: d).length)).length
              = len - (c :: d).length - ((e :: b2).take (len - (c :: d).length)).length := by
            simp only [List.length_append]
            omega
          have hbuf_eq : buf ++ ((c :: d) ++ (e :: b2).take (len - (c :: d).length))
              = (buf ++ (c :: d)) ++ (e :: b2).take (len - (c :: d).length) := by
            rw [List.append_assoc]
          rw [hlen_eq, hbuf_eq]
  | case6 c d len buf digits rest1 hd0 hcolon ih =>
      have hc_nd : isDigitB c = false := head_not_digit_of_takeWhile_len_zero c d hd0
      have hr1 : rest1 = c :: d := by
        unfold rest1
        rw [hd0, List.drop_zero]
      rw [hr1] at ih
      simp only [List.tail_cons] at ih
      have hc58 : c = 58 := by
        rw [hr1] at hcolon
        simpa using hcolon
      rw [List.cons_append, nsRun_length c (d ++ b), nsRun_length c d]
      simp only [takeWhile_digits_nil _ _ hc_nd, List.length_nil, List.drop_zero,
        List.head?_cons, hc58, List.tail_cons, reduceIte]
      exact ih
  | case7 c d len buf digits rest1 hd0 hcolon =>
      have hc_nd : isDigitB c = false := head_not_digit_of_takeWhile_len_zero c d hd0
      have hr1 : rest1 = c :: d := by
        unfold rest1
        rw [hd0, List.drop_zero]
      have hc58 : ¬ c = 58 := by
        intro h
        apply hcolon
        rw [hr1, h]
        rfl
      rw [List.cons_append, nsRun_length c (d ++ b), nsRun_length c d]
      simp only [takeWhile_digits_nil _ _ hc_nd, List.length_nil, List.drop_zero,
        List.head?_cons, reduceIte]
      rw [if_neg (by simpa using hc58), if_neg (by simpa using hc58), nsThen_error]
  | case8 c d len buf digits rest1 hd0 len' hcolon ih =>
      have hdig : digits = (c :: d).takeWhile (fun x => isDigitB x) := rfl
      have hrest : rest1 = (c :: d).drop digits.length := rfl
      have hlenp : len' = len * 10 ^ digits.length + digitsVal digits := rfl
      have hrne : rest1 ≠ [] := by
        intro h
        rw [h] at hcolon
        cases hcolon
      have h2 : 0 < rest1.length := List.length_pos.mpr hrne
      have hle : digits.length ≤ (c :: d).length := by
        rw [hdig]
        exact (List.takeWhile_sublist _).length_le
      have h1 : rest1.length + digits.length = (c :: d).length := by
        rw [hrest]
        simp only [List.length_drop]
        omega
      have hklt : digits.length < (c :: d).length := by omega
      have hdw : (c :: (d ++ b)).takeWhile (fun x => isDigitB x) = digits := by
        rw [← List.cons_append, List.takeWhile_append, ← hdig, if_neg (by omega)]
      have hrw : (c :: (d ++ b)).drop digits.length = rest1 ++ b := by
        rw [← List.cons_append, List.drop_append_eq_append_drop,
          Nat.sub_eq_zero_of_le (by omega), List.drop_zero, ← hrest]
      rw [List.cons_append, nsRun_length c (d ++ b), nsRun_length c d]
      simp only [hdw, ← hdig, ← hrest, hrw]
      rw [if_neg hd0, if_neg hd0]
      simp only [List.head?_append_of_ne_nil _ hrne, hcolon, reduceIte]
      simp only [List.tail_append_of_ne_nil hrne]
      rw [← hlenp]
      rw [ih]
  | case9 c d len buf digits rest1 hd0 len' hcolon ih =>
      have hdig : digits = (c :: d).takeWhile (fun x => isDigitB x) := rfl
      have hrest : rest1 = (c :: d).drop digits.length := rfl
      have hlenp : len' = len * 10 ^ digits.length + digitsVal digits := rfl
      have hle : digits.length ≤ (c :: d).length := by
        rw [hdig]
        exact (List.takeWhile_sublist _).length_le
      by_cases hkeq : digits.length = (c :: d).length
      · -- the whole remaining chunk is digits: the length field may continue in `b`
        have hda : digits = c :: d := by
          rw [hdig]
          exact (List.takeWhile_sublist _).eq_of_length (by rw [← hdig]; exact hkeq)
        have hall : ∀ x ∈ c :: d, isDigitB x = true :=
          List.takeWhile_eq_self_iff.mp
            (show (c :: d).takeWhile (fun x => isDigitB x) = c :: d by
              rw [← hdig]; exact hda)
        have hrnil : rest1 = [] := by
          rw [hrest, hkeq]
          exact List.drop_length _
        have hlenp2 : len' = len * 10 ^ (c :: d).length + digitsVal (c :: d) := by
          rw [hlenp, hda]
        rw [nsRun_length c d]
        simp only [← hdig, ← hrest]
        rw [if_neg hd0, ← hlenp, if_neg hcolon, hrnil, nsRun_nil, nsThen_nil_ok]
        cases b with
        | nil =>
            rw [List.append_nil, nsRun_length c d]
            simp only [← hdig, ← hrest]
            rw [if_neg hd0, ← hlenp, if_neg hcolon, hrnil, nsRun_nil]
        | cons e b2 =>
            rw [List.cons_append, nsRun_length c (d ++ e :: b2)]
            have htww : (c :: (d ++ e :: b2)).takeWhile (fun x => isDigitB x)
                = (c :: d) ++ (e :: b2).takeWhile (fun x => isDigitB x) := by
              rw [← List.cons_append]
              exact List.takeWhile_append_of_pos hall
            rw [htww]
            have hdrw : (c :: (d ++ e :: b2)).drop
                  ((c :: d) ++ (e :: b2).takeWhile (fun x => isDigitB x)).length
                = (e :: b2).drop ((e :: b2).takeWhile (fun x => isDigitB x)).length := by
              rw [← List.cons_append, List.length_append, List.drop_append_eq_append_drop]
              rw [List.drop_eq_nil_of_le (by omega), List.nil_append]
              congr 1
              omega
            simp only [hdrw]
            by_cases hdb0 : ((e :: b2).takeWhile (fun x => isDigitB x)).length = 0
            · have hdbnil : (e :: b2).takeWhile (fun x => isDigitB x) = [] :=
                List.eq_nil_of_length_eq_zero hdb0
              have hend : isDigitB e = false :=
                head_not_digit_of_takeWhile_len_zero e b2 hdb0
              simp only [hdbnil, List.append_nil, List.length_nil, List.drop_zero,
                List.head?_cons, List.tail_cons]
              rw [if_neg (by simp), ← hlenp2]
              by_cases he : e = 58
              · rw [if_pos (by rw [he]), nsRun_length e b2]
                simp only [takeWhile_digits_nil e b2 hend, List.length_nil,
                  List.drop_zero, List.head?_cons, List.tail_cons, reduceIte]
                rw [if_pos (by rw [he])]
              · rw [if_neg (by simpa using he)]
            · have hdbpos : 0 < ((e :: b2).takeWhile (fun x => isDigitB x)).length := by
                omega
              rw [nsRun_length e b2]
              rw [if_neg (by simp only [List.length_append]; omega), if_neg hdb0]
              have harith : len * 10 ^ ((c :: d) ++
                      (e :: b2).takeWhile (fun x => isDigitB x)).length
                    + digitsVal ((c :: d) ++ (e :: b2).takeWhile (fun x => isDigitB x))
                  = len' * 10 ^ ((e :: b2).takeWhile (fun x => isDigitB x)).length
                    + digitsVal ((e :: b2).takeWhile (fun x => isDigitB x)) := by
                rw [hlenp2, List.length_append, digitsVal_append, pow_add]
                ring
              rw [harith]
      · -- a non-digit follows inside this chunk: the step is unaffected by `b`
        have hklt : digits.length < (c :: d).length := by omega
        have hlenr : rest1.length = (c :: d).length - digits.length := by
          rw [hrest]
          simp [List.length_drop]
        have hrne : rest1 ≠ [] := by
          have : 0 < rest1.length := by omega
          exact List.length_pos.mp this
        have hdw : (c :: (d ++ b)).takeWhile (fun x => isDigitB x) = digits := by
          rw [← List.cons_append, List.takeWhile_append, ← hdig, if_neg (by omega)]
        have hrw : (c :: (d ++ b)).drop digits.length = rest1 ++ b := by
          rw [← List.cons_append, List.drop_append_eq_append_drop,
            Nat.sub_eq_zero_of_le (by omega), List.drop_zero, ← hrest]
        rw [List.cons_append, nsRun_length c (d ++ b), nsRun_length c d]
        simp only [hdw, ← hdig, ← hrest, hrw]
        rw [if_neg hd0, if_neg hd0]
        simp only [List.head?_append_of_ne_nil _ hrne]
        rw [if_neg hcolon, if_neg hcolon, ← hlenp]
        rw [ih]

/-- The feed over chunks is, step by step, the composition of runs. -/
theorem nsFeed_flatten : ∀ (cs : List (List Nat)) (s : NState),
    nsFeed cs s = nsRun cs.flatten s := by
  intro cs
  induction cs with
  | nil =>
      intro s
      rw [List.flatten_nil, nsRun_nil]
      rfl
  | cons ch cs ih =>
      intro s
      rw [List.flatten_cons, nsRun_append cs.flatten ch s]
      simp only [nsFeed]
      cases hr : (nsRun ch s).2 with
      | error e =>
          rw [show nsRun ch s = ((nsRun ch s).1, Except.error e) from by rw [← hr]]
          rw [nsThen_error]
      | ok s1 =>
          rw [show nsRun ch s = ((nsRun ch s).1, Except.ok s1) from by rw [← hr]]
          rw [nsThen_ok]
          simp only [ih s1]

/-! ## Chunk-boundary invariance for LineReceiver (line mode) -/

/-- A `lineReceived` callback that never switches the mode: the pure
frame-recording consumer assumed by chunk-boundary invariance. -/
def alwaysLine : List Nat → Bool := fun _ => true

theorem alwaysLine_true (l : List Nat) : alwaysLine l = true := rfl

theorem lrLoop_true_none (buf : List Nat) (h : splitOnce delimiter buf = none) :
    lrLoop alwaysLine true buf = ([], ⟨true, buf⟩) := by
  rw [lrLoop.eq_def]
  simp only []
  split
  · rfl
  · rename_i l r heq
    rw [h] at heq
    cases heq

theorem lrLoop_true_some (buf l r : List Nat) (h : splitOnce delimiter buf = some (l, r)) :
    lrLoop alwaysLine true buf
      = (LEvent.line l :: (lrLoop alwaysLine true r).1,
         (lrLoop alwaysLine true r).2) := by
  rw [lrLoop.eq_def]
  simp only []
  split
  · rename_i heq
    rw [h] at heq
    cases heq
  · rename_i l' r' heq
    rw [h] at heq
    rw [Option.some.injEq, Prod.mk.injEq] at heq
    obtain ⟨hl, hr⟩ := heq
    subst hl
    subst hr
    rfl

/-- After a drain in line mode with the pure consumer, the decoder is still
in line mode and the residual buffer holds no complete delimiter. -/
theorem lrLoop_true_inv : ∀ (m : Bool) (buf : List Nat), m = true →
    ((lrLoop alwaysLine m buf).2.line_mode = true
    ∧ splitOnce delimiter ((lrLoop alwaysLine m buf).2.buffer) = none) := by
  intro m buf
  induction m, buf using lrLoop.induct alwaysLine with
  | case1 =>
      intro h
      cases h
  | case2 buf hne =>
      intro h
      cases h
  | case3 buf hnone =>
      intro _
      rw [lrLoop_true_none buf hnone]
      exact ⟨rfl, hnone⟩
  | case4 buf l r hsome ih =>
      intro _
      rw [lrLoop_true_some buf l r hsome]
      exact ih rfl

/-- Composition for the line-mode drain: draining `x ++ y` is draining `x`,
then draining the residue of `x` extended by `y`. -/
theorem lrLoop_append (y : List Nat) : ∀ (m : Bool) (x : List Nat), m = true →
    lrLoop alwaysLine m (x ++ y)
      = ((lrLoop alwaysLine m x).1
           ++ (lrLoop alwaysLine true ((lrLoop alwaysLine m x).2.buffer ++ y)).1,
         (lrLoop alwaysLine true ((lrLoop alwaysLine m x).2.buffer ++ y)).2) := by
  intro m x
  induction m, x using lrLoop.induct alwaysLine with
  | case1 =>
      intro h
      cases h
  | case2 buf hne =>
      intro h
      cases h
  | case3 x hnone =>
      intro _
      rw [lrLoop_true_none x hnone]
      simp
  | case4 x l r hsome ih =>
      intro _
      rw [lrLoop_true_some x l r hsome,
        lrLoop_true_some (x ++ y) l (r ++ y) (splitOnce_append hsome)]
      have ih' := ih rfl
      simp only [alwaysLine_true] at ih'
      rw [ih']
      simp

/-- Feeding chunks one call at a time, starting from any delimiter-free
buffer, equals one drain of the whole concatenation. -/
theorem lrFeed_flatten : ∀ (cs : List (List Nat)) (u : List Nat),
    splitOnce delimiter u = none →
    lrFeed alwaysLine cs ⟨true, u⟩ = lrLoop alwaysLine true (u ++ cs.flatten) := by
  intro cs
  induction cs with
  | nil =>
      intro u hu
      rw [List.flatten_nil, List.append_nil, lrLoop_true_none u hu]
      rfl
  | cons ch cs ih =>
      intro u hu
      simp only [lrFeed, lrDataReceived]
      have hinv := lrLoop_true_inv true (u ++ ch) rfl
      cases hst : (lrLoop alwaysLine true (u ++ ch)).2 with
      | mk lm bu =>
          rw [hst] at hinv
          obtain ⟨hlm, hbu⟩ := hinv
          simp only [] at hlm hbu
          subst hlm
          rw [ih bu hbu]
          rw [List.flatten_cons,
            show u ++ (ch ++ cs.flatten) = (u ++ ch) ++ cs.flatten from
              (List.append_assoc u ch cs.flatten).symm]
          rw [lrLoop_append cs.flatten true (u ++ ch) rfl, hst]

/-- C1 (amended): chunk-boundary invariance holds for `NetstringReceiver`
(frames, final state and first error all agree between any chunked feed and
the one-shot feed) and for `LineReceiver` in line mode with a
non-mode-switching consumer; `Int32StringReceiver` violates it (see the
counterexample: its signed header read makes the slice bounds depend on how
much is buffered). -/
theorem chunk_boundary_invariance_ns_lr :
    (∀ (chunks : List (List Nat)) (s : NState),
        nsFeed chunks s = nsRun chunks.flatten s)
    ∧ (∀ chunks : List (List Nat),
        lrFeed alwaysLine chunks lrInit
          = lrDataReceived alwaysLine chunks.flatten lrInit) := by
  constructor
  · exact nsFeed_flatten
  · intro chunks
    rw [show lrInit = ⟨true, []⟩ from rfl, lrFeed_flatten chunks [] (by decide)]
    rfl

/-- C1 (counterexample): for `Int32StringReceiver`, feeding
`FF FF FF FB 09` then `00 00 04 41 41 41 41 42` delivers one empty frame,
while feeding the concatenation in a single call delivers the 8-byte frame
`09 00 00 04 41 41 41 41`; both runs terminate (no fuel exhaustion), so the
decoded frame sequences genuinely differ across a chunk boundary. -/
theorem i32_chunk_invariance_counterexample :
    (i32Feed 50 [[255, 255, 255, 251, 9], [0, 0, 4, 65, 65, 65, 65, 66]] []).1
        ≠ (i32Feed 50 [[255, 255, 255, 251, 9] ++ [0, 0, 4, 65, 65, 65, 65, 66]] []).1
    ∧ (i32Feed 50 [[255, 255, 255, 251, 9], [0, 0, 4, 65, 65, 65, 65, 66]] []).2 ≠ none
    ∧ (i32Feed 50 [[255, 255, 255, 251, 9] ++ [0, 0, 4, 65, 65, 65, 65, 66]] []).2 ≠ none := by
  decide
